import Mathlib

/-!
# Gaussian analytics of the normal-distribution dashboard

Shallow embedding of the Gaussian analytics used by `src/app.py`:
the probability density `stats.norm.pdf`, the cumulative distribution
`stats.norm.cdf`, the inverse CDF `stats.norm.ppf`, and the derived
quantities the dashboard computes from them (acceptance probabilities,
z-test decisions, percentile benchmarks, curve heights over a
`np.linspace` grid).  Real numbers stand for the double-precision floats
of the source.
-/

open Real Set MeasureTheory intervalIntegral

noncomputable section

namespace Gaussian

/-- Embeds `stats.norm.pdf(x, mu, sigma)`: the Gaussian probability density
`f(x) = 1/(σ√(2π)) · exp(−(x−μ)²/(2σ²))`, the formula displayed at
`src/app.py` line 49 and evaluated at lines 56, 106, 123, 516 etc. -/
def density (x mu sigma : ℝ) : ℝ :=
  (1 / (sigma * Real.sqrt (2 * π))) * Real.exp (-(x - mu) ^ 2 / (2 * sigma ^ 2))

/-- Embeds `stats.norm.cdf(x, mu, sigma)`: the probability mass at or below
`x`, i.e. the integral of the density over `(−∞, x]` (used at
`src/app.py` lines 564-565, 632-634, 703-704, 792). -/
def cumulative (x mu sigma : ℝ) : ℝ :=
  ∫ t in Iic x, density t mu sigma

/-- Embeds `stats.norm.ppf(p, mu, sigma)`: the inverse CDF
`inf {x | p ≤ cdf(x)}` (used at `src/app.py` lines 637, 707-709, 795). -/
def quantile (p mu sigma : ℝ) : ℝ :=
  sInf {x : ℝ | p ≤ cumulative x mu sigma}

/-- Modelled from the spec: `interval_probability(lower, upper, μ, σ)`
returns `cumulative(upper) - cumulative(lower)`.  The reusable Gaussian
analytics module of spec §4.1 is not factored out in `src/`; the UI
computes the same quantity inline (e.g. `p_accept` at lines 564-567). -/
def interval_probability (lower upper mu sigma : ℝ) : ℝ :=
  cumulative upper mu sigma - cumulative lower mu sigma

/-- Modelled from the spec: the error taxonomy of spec §7
(`InvalidParameter`, `OutOfRange`, `InvalidRange`); `src/` has no error
handling at all. -/
inductive StatError
  | invalidParameter
  | outOfRange
  | invalidRange
  deriving DecidableEq

open Classical in
/-- Modelled from the spec: `density` with the σ > 0 validity check of
spec §4.1, failing with `InvalidParameter` when σ ≤ 0; `src/` calls
`stats.norm.pdf` unguarded. -/
def density_checked (x mu sigma : ℝ) : Except StatError ℝ :=
  if sigma ≤ 0 then .error .invalidParameter
  else .ok (density x mu sigma)

open Classical in
/-- Modelled from the spec: `quantile` with the validity checks of spec
§4.1 and §7: σ ≤ 0 or a probability outside `[0,1]` is
`InvalidParameter`, a probability of exactly 0 or 1 is `OutOfRange`;
`src/` calls `stats.norm.ppf` unguarded. -/
def quantile_checked (p mu sigma : ℝ) : Except StatError ℝ :=
  if sigma ≤ 0 then .error .invalidParameter
  else if p = 0 ∨ p = 1 then .error .outOfRange
  else if p < 0 ∨ 1 < p then .error .invalidParameter
  else .ok (quantile p mu sigma)

/-! Quality-control block, `src/app.py` lines 560-567. -/

/-- `lower_spec = target_diameter - tolerance` (`src/app.py` line 560). -/
def lower_spec (target_diameter tolerance : ℝ) : ℝ := target_diameter - tolerance

/-- `upper_spec = target_diameter + tolerance` (`src/app.py` line 561). -/
def upper_spec (target_diameter tolerance : ℝ) : ℝ := target_diameter + tolerance

/-- `p_reject_low = stats.norm.cdf(lower_spec, target_diameter, process_std)`
(`src/app.py` line 564). -/
def p_reject_low (target_diameter process_std tolerance : ℝ) : ℝ :=
  cumulative (lower_spec target_diameter tolerance) target_diameter process_std

/-- `p_reject_high = 1 - stats.norm.cdf(upper_spec, target_diameter, process_std)`
(`src/app.py` line 565). -/
def p_reject_high (target_diameter process_std tolerance : ℝ) : ℝ :=
  1 - cumulative (upper_spec target_diameter tolerance) target_diameter process_std

/-- `p_reject_total = p_reject_low + p_reject_high` (`src/app.py` line 566). -/
def p_reject_total (target_diameter process_std tolerance : ℝ) : ℝ :=
  p_reject_low target_diameter process_std tolerance +
    p_reject_high target_diameter process_std tolerance

/-- `p_accept = 1 - p_reject_total` (`src/app.py` line 567). -/
def p_accept (target_diameter process_std tolerance : ℝ) : ℝ :=
  1 - p_reject_total target_diameter process_std tolerance

/-! Interactive-explorer curve statistics, `src/app.py` lines 105-107. -/

/-- Embeds `np.linspace(a, b, n)`: `n` evenly spaced points from `a` to
`b` inclusive, point `i` being `a + (b - a) * i / (n - 1)`. -/
def linspace (a b : ℝ) (n : ℕ) : List ℝ :=
  (List.range n).map fun i => a + (b - a) * (i : ℝ) / ((n : ℝ) - 1)

/-- Embeds `np.max` on a nonempty array (`[]` is out of the source's
domain and mapped to 0). -/
def npMax : List ℝ → ℝ
  | [] => 0
  | [x] => x
  | x :: y :: xs => max x (npMax (y :: xs))

/-- `max_height = np.max(stats.norm.pdf(np.linspace(mu - 4*sigma,
mu + 4*sigma, 1000), mu, sigma))` (`src/app.py` lines 105-107). -/
def max_height (mu sigma : ℝ) : ℝ :=
  npMax (((linspace (mu - 4 * sigma) (mu + 4 * sigma) 1000).map
    fun x => density x mu sigma))

/-! One-sample z-test, `src/app.py` lines 790-798. -/

/-- `standard_error = population_std / math.sqrt(sample_size)`
(`src/app.py` line 790). -/
def standard_error (population_std sample_size : ℝ) : ℝ :=
  population_std / Real.sqrt sample_size

/-- `z_score = (sample_mean - claimed_mean) / standard_error`
(`src/app.py` line 791). -/
def z_score (claimed_mean population_std sample_size sample_mean : ℝ) : ℝ :=
  (sample_mean - claimed_mean) / standard_error population_std sample_size

/-- `p_value = 2 * (1 - stats.norm.cdf(abs(z_score)))` (`src/app.py`
line 792; `stats.norm.cdf` with default `loc=0, scale=1`). -/
def p_value (claimed_mean population_std sample_size sample_mean : ℝ) : ℝ :=
  2 * (1 - cumulative |z_score claimed_mean population_std sample_size sample_mean| 0 1)

/-- `z_critical = stats.norm.ppf(1 - alpha/2)` (`src/app.py` line 795). -/
def z_critical (alpha : ℝ) : ℝ := quantile (1 - alpha / 2) 0 1

/-- `reject_null = abs(z_score) > z_critical` (`src/app.py` line 798). -/
def reject_null (claimed_mean population_std sample_size sample_mean alpha : ℝ) : Prop :=
  |z_score claimed_mean population_std sample_size sample_mean| > z_critical alpha

/-! Auxiliary objects for numerically bracketing the Gaussian integrals
that `stats.norm.cdf` evaluates. -/

/-- Taylor partial sum `∑_{j ≤ n} (-u)^j / j!` of `exp (-u)`. -/
def expPoly (n : ℕ) (u : ℝ) : ℝ :=
  ∑ j ∈ Finset.range (n + 1), (-u) ^ j / (Nat.factorial j : ℝ)

/-- Value of `∫ t in 0..k, expPoly n (t²/2)`:
`∑_{j ≤ n} (-1)^j k^(2j+1) / ((2j+1) 2^j j!)`. -/
def gaussSeries (n : ℕ) (k : ℝ) : ℝ :=
  ∑ j ∈ Finset.range (n + 1),
    (-1 : ℝ) ^ j * k ^ (2 * j + 1) / (((2 * j + 1) * 2 ^ j * Nat.factorial j : ℕ) : ℝ)

end Gaussian

end

namespace Gaussian

/-! ## Basic facts about the density -/

theorem two_pi_pos : (0 : ℝ) < 2 * π := by positivity

theorem sqrt_two_pi_pos : 0 < Real.sqrt (2 * π) :=
  Real.sqrt_pos.mpr two_pi_pos

theorem density_pos {sigma : ℝ} (hs : 0 < sigma) (x mu : ℝ) :
    0 < density x mu sigma :=
  mul_pos (div_pos one_pos (mul_pos hs sqrt_two_pi_pos)) (Real.exp_pos _)

theorem density_eq_comp (mu sigma : ℝ) :
    (fun x => density x mu sigma) =
      fun x => (1 / (sigma * Real.sqrt (2 * π))) *
        Real.exp (-(1 / (2 * sigma ^ 2)) * (x - mu) ^ 2) := by
  funext x
  unfold density
  congr 2
  ring

theorem integrable_density {mu sigma : ℝ} (hs : 0 < sigma) :
    Integrable (fun x => density x mu sigma) := by
  have hb : (0 : ℝ) < 1 / (2 * sigma ^ 2) := by positivity
  have h1 : Integrable fun y : ℝ => Real.exp (-(1 / (2 * sigma ^ 2)) * y ^ 2) :=
    integrable_exp_neg_mul_sq hb
  have h2 := (h1.comp_sub_right mu).const_mul (1 / (sigma * Real.sqrt (2 * π)))
  rw [density_eq_comp]
  exact h2

theorem integral_density {mu sigma : ℝ} (hs : 0 < sigma) :
    ∫ x, density x mu sigma = 1 := by
  rw [density_eq_comp, MeasureTheory.integral_mul_left,
    integral_sub_right_eq_self (fun y => Real.exp (-(1 / (2 * sigma ^ 2)) * y ^ 2)) mu,
    integral_gaussian]
  have h2 : π / (1 / (2 * sigma ^ 2)) = 2 * π * sigma ^ 2 := by
    field_simp
    ring
  rw [h2, Real.sqrt_mul two_pi_pos.le, Real.sqrt_sq hs.le]
  have hσ : sigma ≠ 0 := ne_of_gt hs
  have hsq : Real.sqrt (2 * π) ≠ 0 := ne_of_gt sqrt_two_pi_pos
  field_simp
  ring

/-! ## Basic facts about the cumulative distribution function -/

theorem intervalIntegrable_density {mu sigma : ℝ} (hs : 0 < sigma) (a b : ℝ) :
    IntervalIntegrable (fun t => density t mu sigma) volume a b :=
  (integrable_density hs).intervalIntegrable

theorem cumulative_sub_cumulative (mu : ℝ) {sigma : ℝ} (hs : 0 < sigma) (a b : ℝ) :
    cumulative b mu sigma - cumulative a mu sigma = ∫ t in a..b, density t mu sigma := by
  unfold cumulative
  exact integral_Iic_sub_Iic (integrable_density hs).integrableOn
    (integrable_density hs).integrableOn

theorem cumulative_strictMono {mu sigma : ℝ} (hs : 0 < sigma) :
    StrictMono fun x => cumulative x mu sigma := by
  intro a b hab
  have hpos : 0 < ∫ t in a..b, density t mu sigma :=
    intervalIntegral_pos_of_pos (intervalIntegrable_density hs a b)
      (fun x => density_pos hs x mu) hab
  have := cumulative_sub_cumulative mu hs a b
  show cumulative a mu sigma < cumulative b mu sigma
  linarith

theorem cumulative_nonneg {mu sigma : ℝ} (hs : 0 < sigma) (x : ℝ) :
    0 ≤ cumulative x mu sigma :=
  setIntegral_nonneg measurableSet_Iic fun t _ => (density_pos hs t mu).le

theorem cumulative_add_Ioi (mu : ℝ) {sigma : ℝ} (hs : 0 < sigma) (x : ℝ) :
    cumulative x mu sigma + ∫ t in Ioi x, density t mu sigma = 1 := by
  have h := integral_add_compl (measurableSet_Iic (a := x))
    (@integrable_density mu sigma hs)
  rw [compl_Iic, integral_density hs] at h
  exact h

theorem cumulative_lt_one {mu sigma : ℝ} (hs : 0 < sigma) (x : ℝ) :
    cumulative x mu sigma < 1 := by
  have h1 := cumulative_add_Ioi mu hs (x + 1)
  have h2 : cumulative x mu sigma < cumulative (x + 1) mu sigma :=
    cumulative_strictMono hs (by linarith)
  have h3 : 0 ≤ ∫ t in Ioi (x + 1), density t mu sigma :=
    setIntegral_nonneg measurableSet_Ioi fun t _ => (density_pos hs t mu).le
  linarith

theorem cumulative_pos {mu sigma : ℝ} (hs : 0 < sigma) (x : ℝ) :
    0 < cumulative x mu sigma := by
  have h1 : cumulative (x - 1) mu sigma < cumulative x mu sigma :=
    cumulative_strictMono hs (by linarith)
  have h2 := @cumulative_nonneg mu sigma hs (x - 1)
  linarith

theorem continuous_cumulative {mu sigma : ℝ} (hs : 0 < sigma) :
    Continuous fun x => cumulative x mu sigma := by
  have key : (fun x => cumulative x mu sigma) =
      fun x => cumulative 0 mu sigma + ∫ t in (0 : ℝ)..x, density t mu sigma := by
    funext x
    have := cumulative_sub_cumulative mu hs 0 x
    linarith
  rw [key]
  exact continuous_const.add ((integrable_density hs).continuous_primitive 0)

/-! ## Surjectivity of the CDF onto `(0, 1)` and the quantile function -/

theorem exists_cumulative_gt (mu : ℝ) {sigma : ℝ} (hs : 0 < sigma) {p : ℝ}
    (hp : p < 1) : ∃ b : ℝ, p < cumulative b mu sigma := by
  have hmono : Monotone fun n : ℕ => Iic ((n : ℝ)) := fun n m hnm =>
    Iic_subset_Iic.mpr (by exact_mod_cast hnm)
  have hunion : (⋃ n : ℕ, Iic ((n : ℝ))) = univ := by
    ext t
    simp only [mem_iUnion, mem_Iic, mem_univ, iff_true]
    exact exists_nat_ge t
  have hint : IntegrableOn (fun t => density t mu sigma) (⋃ n : ℕ, Iic ((n : ℝ))) := by
    rw [hunion]
    exact (integrable_density hs).integrableOn
  have htendsto := tendsto_setIntegral_of_monotone
    (fun n : ℕ => measurableSet_Iic) hmono hint
  rw [hunion] at htendsto
  have hlim : (∫ t in (univ : Set ℝ), density t mu sigma) = 1 := by
    rw [setIntegral_univ]
    exact integral_density hs
  rw [hlim] at htendsto
  obtain ⟨n, hn⟩ := (htendsto.eventually_const_lt hp).exists
  exact ⟨(n : ℝ), hn⟩

theorem exists_cumulative_lt (mu : ℝ) {sigma : ℝ} (hs : 0 < sigma) {p : ℝ}
    (hp : 0 < p) : ∃ a : ℝ, cumulative a mu sigma < p := by
  have hmono : Monotone fun n : ℕ => Ioi (-(n : ℝ)) := fun n m hnm =>
    Ioi_subset_Ioi (neg_le_neg (by exact_mod_cast hnm))
  have hunion : (⋃ n : ℕ, Ioi (-(n : ℝ))) = univ := by
    ext t
    simp only [mem_iUnion, mem_Ioi, mem_univ, iff_true]
    obtain ⟨n, hn⟩ := exists_nat_gt (-t)
    exact ⟨n, by linarith⟩
  have hint : IntegrableOn (fun t => density t mu sigma) (⋃ n : ℕ, Ioi (-(n : ℝ))) := by
    rw [hunion]
    exact (integrable_density hs).integrableOn
  have htendsto := tendsto_setIntegral_of_monotone
    (fun n : ℕ => measurableSet_Ioi) hmono hint
  rw [hunion] at htendsto
  have hlim : (∫ t in (univ : Set ℝ), density t mu sigma) = 1 := by
    rw [setIntegral_univ]
    exact integral_density hs
  rw [hlim] at htendsto
  obtain ⟨n, hn⟩ := (htendsto.eventually_const_lt (by linarith : 1 - p < 1)).exists
  refine ⟨-(n : ℝ), ?_⟩
  have := cumulative_add_Ioi mu hs (-(n : ℝ))
  linarith

theorem exists_cumulative_eq (mu : ℝ) {sigma : ℝ} (hs : 0 < sigma) {p : ℝ}
    (hp0 : 0 < p) (hp1 : p < 1) : ∃ x : ℝ, cumulative x mu sigma = p := by
  obtain ⟨a, ha⟩ := exists_cumulative_lt mu hs hp0
  obtain ⟨b, hb⟩ := exists_cumulative_gt mu hs hp1
  have hab : a ≤ b := by
    by_contra hcon
    have : cumulative b mu sigma < cumulative a mu sigma :=
      cumulative_strictMono hs (lt_of_not_le hcon)
    linarith
  have hsub := intermediate_value_Icc hab
    ((@continuous_cumulative mu sigma hs).continuousOn
      (s := Icc a b))
  obtain ⟨x, _, hx⟩ := hsub ⟨ha.le, hb.le⟩
  exact ⟨x, hx⟩

theorem quantile_cumulative (mu : ℝ) {sigma : ℝ} (hs : 0 < sigma) (x : ℝ) :
    quantile (cumulative x mu sigma) mu sigma = x := by
  unfold quantile
  have hset : {y : ℝ | cumulative x mu sigma ≤ cumulative y mu sigma} = Ici x := by
    ext y
    simpa using (@cumulative_strictMono mu sigma hs).le_iff_le (a := x) (b := y)
  rw [hset, csInf_Ici]

theorem quantile_eq_of_cumulative_eq (mu : ℝ) {sigma : ℝ} (hs : 0 < sigma)
    {p x : ℝ} (h : cumulative x mu sigma = p) : quantile p mu sigma = x := by
  rw [← h]
  exact quantile_cumulative mu hs x

/-! ## Symmetry of the CDF about the mean -/

theorem setIntegral_Iic_comp_add (f : ℝ → ℝ) (a d : ℝ) :
    ∫ x in Iic a, f (x + d) = ∫ x in Iic (a + d), f x := by
  have A : MeasurableEmbedding fun x : ℝ => x + d :=
    (Homeomorph.addRight d).isClosedEmbedding.measurableEmbedding
  have B := A.setIntegral_map (μ := volume) f (Iic (a + d))
  rw [map_add_right_eq_self volume d, preimage_add_const_Iic, add_sub_cancel_right] at B
  exact B.symm

theorem setIntegral_Iic_comp_sub (f : ℝ → ℝ) (a d : ℝ) :
    ∫ x in Iic a, f (x - d) = ∫ x in Iic (a - d), f x := by
  have h := setIntegral_Iic_comp_add f a (-d)
  simpa [sub_eq_add_neg] using h

theorem density_shift (mu sigma : ℝ) :
    (fun t => density t mu sigma) = fun t => density (t - mu) 0 sigma := by
  funext t
  unfold density
  congr 2
  ring

theorem cumulative_shift (x mu sigma : ℝ) :
    cumulative x mu sigma = cumulative (x - mu) 0 sigma := by
  unfold cumulative
  rw [density_shift mu sigma]
  exact setIntegral_Iic_comp_sub (fun t => density t 0 sigma) x mu

theorem density_even (sigma t : ℝ) : density (-t) 0 sigma = density t 0 sigma := by
  unfold density
  congr 2
  ring

theorem cumulative_zero_half {sigma : ℝ} (hs : 0 < sigma) :
    cumulative 0 0 sigma = 1 / 2 := by
  have heven : cumulative 0 0 sigma = ∫ t in Ioi (0 : ℝ), density t 0 sigma := by
    unfold cumulative
    have h1 : ∫ t in Iic (0 : ℝ), density t 0 sigma =
        ∫ t in Iic (0 : ℝ), density (-t) 0 sigma := by
      apply setIntegral_congr_fun measurableSet_Iic
      intro t _
      exact (density_even sigma t).symm
    rw [h1, integral_comp_neg_Iic 0 (fun t => density t 0 sigma), neg_zero]
  have hsum := cumulative_add_Ioi 0 hs 0
  rw [← heven] at hsum
  linarith

theorem cumulative_mean {sigma : ℝ} (hs : 0 < sigma) (mu : ℝ) :
    cumulative mu mu sigma = 1 / 2 := by
  rw [cumulative_shift, sub_self]
  exact cumulative_zero_half hs

/-! ## The peak of the density and the plotted grid -/

theorem density_peak_eq (mu sigma : ℝ) :
    density mu mu sigma = 1 / (sigma * Real.sqrt (2 * π)) := by
  unfold density
  rw [sub_self]
  norm_num

theorem density_le_peak {sigma : ℝ} (hs : 0 < sigma) (x mu : ℝ) :
    density x mu sigma ≤ density mu mu sigma := by
  rw [density_peak_eq]
  unfold density
  have h1 : Real.exp (-(x - mu) ^ 2 / (2 * sigma ^ 2)) ≤ 1 := by
    rw [← Real.exp_zero]
    apply Real.exp_le_exp.mpr
    have hnum : (0 : ℝ) ≤ (x - mu) ^ 2 := sq_nonneg _
    have hden : (0 : ℝ) < 2 * sigma ^ 2 := by positivity
    exact div_nonpos_iff.mpr (Or.inr ⟨neg_nonpos.mpr hnum, hden.le⟩)
  have h2 : (0 : ℝ) ≤ 1 / (sigma * Real.sqrt (2 * π)) :=
    le_of_lt (div_pos one_pos (mul_pos hs sqrt_two_pi_pos))
  calc 1 / (sigma * Real.sqrt (2 * π)) * Real.exp (-(x - mu) ^ 2 / (2 * sigma ^ 2))
      ≤ 1 / (sigma * Real.sqrt (2 * π)) * 1 := by
        exact mul_le_mul_of_nonneg_left h1 h2
    _ = 1 / (sigma * Real.sqrt (2 * π)) := mul_one _

theorem npMax_le : ∀ (l : List ℝ) (B : ℝ), l ≠ [] → (∀ y ∈ l, y ≤ B) → npMax l ≤ B
  | [], _, hne, _ => absurd rfl hne
  | [x], B, _, h => h x (by simp)
  | x :: y :: xs, B, _, h => by
      show max x (npMax (y :: xs)) ≤ B
      refine max_le (h x (by simp)) (npMax_le (y :: xs) B (by simp) ?_)
      intro z hz
      exact h z (List.mem_cons_of_mem x hz)

theorem max_height_le_peak {sigma : ℝ} (hs : 0 < sigma) (mu : ℝ) :
    max_height mu sigma ≤ density mu mu sigma := by
  unfold max_height
  apply npMax_le
  · intro hnil
    simp [linspace] at hnil
    exact absurd (hnil 0) (by norm_num)
  · intro y hy
    obtain ⟨x, _, hx⟩ := List.mem_map.mp hy
    rw [← hx]
    exact density_le_peak hs x mu

theorem quantile_lt_quantile (mu : ℝ) {sigma : ℝ} (hs : 0 < sigma) {p q : ℝ}
    (hp : 0 < p) (hpq : p < q) (hq : q < 1) :
    quantile p mu sigma < quantile q mu sigma := by
  obtain ⟨x, hx⟩ := exists_cumulative_eq mu hs hp (lt_trans hpq hq)
  obtain ⟨y, hy⟩ := exists_cumulative_eq mu hs (lt_trans hp hpq) hq
  rw [quantile_eq_of_cumulative_eq mu hs hx, quantile_eq_of_cumulative_eq mu hs hy]
  apply (@cumulative_strictMono mu sigma hs).lt_iff_lt.mp
  show cumulative x mu sigma < cumulative y mu sigma
  rw [hx, hy]
  exact hpq

/-! ## Taylor bracketing of `exp (-u)` on `u ≥ 0` -/

theorem expPoly_zero (n : ℕ) : expPoly n 0 = 1 := by
  unfold expPoly
  rw [Finset.sum_eq_single 0]
  · norm_num
  · intro j _ hj0
    rw [neg_zero, zero_pow hj0, zero_div]
  · intro h
    exact absurd (Finset.mem_range.mpr (Nat.succ_pos n)) h

theorem hasDerivAt_expPoly (n : ℕ) (u : ℝ) :
    HasDerivAt (fun v => expPoly (n + 1) v) (-expPoly n u) u := by
  have hterm : ∀ j ∈ Finset.range (n + 2),
      HasDerivAt (fun v : ℝ => (-v) ^ j / (Nat.factorial j : ℝ))
        (((j : ℝ) * (-u) ^ (j - 1) * (-1)) / (Nat.factorial j : ℝ)) u := by
    intro j _
    have h1 : HasDerivAt (fun v : ℝ => -v) (-1) u := (hasDerivAt_id u).neg
    exact (h1.pow j).div_const _
  have hsum := HasDerivAt.sum hterm
  have hval : (∑ j ∈ Finset.range (n + 2),
      ((j : ℝ) * (-u) ^ (j - 1) * (-1)) / (Nat.factorial j : ℝ)) = -expPoly n u := by
    rw [Finset.sum_range_succ']
    have h0 : ((0 : ℕ) : ℝ) * (-u) ^ (0 - 1) * (-1) / (Nat.factorial 0 : ℝ) = 0 := by
      norm_num
    rw [h0, add_zero]
    unfold expPoly
    rw [← Finset.sum_neg_distrib]
    apply Finset.sum_congr rfl
    intro i _
    have hfac : (Nat.factorial (i + 1) : ℝ) = ((i : ℝ) + 1) * (Nat.factorial i : ℝ) := by
      rw [Nat.factorial_succ]
      push_cast
      ring
    have hsub : i + 1 - 1 = i := by omega
    rw [hsub, hfac]
    have hne : (Nat.factorial i : ℝ) ≠ 0 := Nat.cast_ne_zero.mpr (Nat.factorial_ne_zero i)
    have hne2 : ((i : ℝ) + 1) ≠ 0 := by positivity
    push_cast
    field_simp
    ring
  rw [hval] at hsum
  exact hsum

theorem exp_neg_bracket (n : ℕ) :
    ∀ u : ℝ, 0 ≤ u → 0 ≤ (-1 : ℝ) ^ (n + 1) * (Real.exp (-u) - expPoly n u) := by
  induction n with
  | zero =>
    intro u hu
    have h1 : Real.exp (-u) ≤ 1 := by
      rw [← Real.exp_zero]
      exact Real.exp_le_exp.mpr (neg_nonpos.mpr hu)
    have h2 : expPoly 0 u = 1 := by
      unfold expPoly
      norm_num
    rw [h2, pow_one]
    nlinarith
  | succ n ih =>
    intro u hu
    have hderiv : ∀ v : ℝ, HasDerivAt
        (fun w => (-1 : ℝ) ^ (n + 2) * (Real.exp (-w) - expPoly (n + 1) w))
        ((-1 : ℝ) ^ (n + 1) * (Real.exp (-v) - expPoly n v)) v := by
      intro v
      have hexp : HasDerivAt (fun w : ℝ => Real.exp (-w)) (-Real.exp (-v)) v := by
        have h1 : HasDerivAt (fun w : ℝ => -w) (-1) v := (hasDerivAt_id v).neg
        simpa using h1.exp
      have hcomb := (hexp.sub (hasDerivAt_expPoly n v)).const_mul ((-1 : ℝ) ^ (n + 2))
      convert hcomb using 1
      rw [pow_succ]
      ring
    have hdiff : Differentiable ℝ
        fun w => (-1 : ℝ) ^ (n + 2) * (Real.exp (-w) - expPoly (n + 1) w) :=
      fun v => (hderiv v).differentiableAt
    have hmono : MonotoneOn
        (fun w => (-1 : ℝ) ^ (n + 2) * (Real.exp (-w) - expPoly (n + 1) w)) (Ici 0) := by
      apply monotoneOn_of_deriv_nonneg (convex_Ici 0) hdiff.continuous.continuousOn
        hdiff.differentiableOn
      intro v hv
      rw [(hderiv v).deriv]
      have hv0 : 0 < v := by simpa [interior_Ici] using hv
      exact ih v hv0.le
    have hg0 : (-1 : ℝ) ^ (n + 2) * (Real.exp (-(0 : ℝ)) - expPoly (n + 1) 0) = 0 := by
      rw [expPoly_zero]
      norm_num
    have hle := hmono (mem_Ici.mpr le_rfl) (mem_Ici.mpr hu) hu
    simp only at hle
    rw [hg0] at hle
    exact hle

theorem exp_neg_le_expPoly_even (m : ℕ) {u : ℝ} (hu : 0 ≤ u) :
    Real.exp (-u) ≤ expPoly (2 * m) u := by
  have h := exp_neg_bracket (2 * m) u hu
  have hpow : ((-1 : ℝ)) ^ (2 * m + 1) = -1 := by
    rw [pow_succ, Even.neg_one_pow (even_two_mul m), one_mul]
  rw [hpow] at h
  linarith

theorem expPoly_odd_le_exp_neg (m : ℕ) {u : ℝ} (hu : 0 ≤ u) :
    expPoly (2 * m + 1) u ≤ Real.exp (-u) := by
  have h := exp_neg_bracket (2 * m + 1) u hu
  have hpow : ((-1 : ℝ)) ^ (2 * m + 1 + 1) = 1 := by
    have h2 : 2 * m + 1 + 1 = 2 * (m + 1) := by ring
    rw [h2, Even.neg_one_pow (even_two_mul (m + 1))]
  rw [hpow, one_mul] at h
  linarith

/-! ## Integrating the bracketing polynomials -/

theorem continuous_exp_neg_sq : Continuous fun t : ℝ => Real.exp (-(t ^ 2 / 2)) :=
  (((continuous_pow 2).div_const 2).neg).rexp

theorem integral_expPoly_sq (n : ℕ) (k : ℝ) :
    ∫ t in (0 : ℝ)..k, expPoly n (t ^ 2 / 2) = gaussSeries n k := by
  unfold expPoly gaussSeries
  rw [intervalIntegral.integral_finset_sum]
  · apply Finset.sum_congr rfl
    intro j _
    have hne1 : ((2 * j + 1 : ℕ) : ℝ) ≠ 0 := by positivity
    have hne2 : ((2 : ℝ) ^ j) ≠ 0 := by positivity
    have hne3 : (Nat.factorial j : ℝ) ≠ 0 :=
      Nat.cast_ne_zero.mpr (Nat.factorial_ne_zero j)
    have hfun : (fun t : ℝ => (-(t ^ 2 / 2)) ^ j / (Nat.factorial j : ℝ)) =
        fun t : ℝ => ((-1 : ℝ) ^ j / (2 ^ j * (Nat.factorial j : ℝ))) * t ^ (2 * j) := by
      funext t
      rw [show -(t ^ 2 / 2) = (-1) * t ^ 2 / 2 by ring, div_pow, mul_pow, ← pow_mul]
      field_simp
    rw [hfun, intervalIntegral.integral_const_mul, integral_pow,
      zero_pow (by omega : 2 * j + 1 ≠ 0), sub_zero]
    push_cast
    rw [div_mul_div_comm]
    ring_nf
  · intro j _
    exact ((((continuous_pow 2).div_const 2).neg.pow j).div_const _).intervalIntegrable 0 k

theorem gaussSeries_le_integral (m : ℕ) {k : ℝ} (hk : 0 ≤ k) :
    gaussSeries (2 * m + 1) k ≤ ∫ t in (0 : ℝ)..k, Real.exp (-(t ^ 2 / 2)) := by
  rw [← integral_expPoly_sq]
  apply intervalIntegral.integral_mono_on hk
    ((continuous_finset_sum _ fun j _ =>
      ((((continuous_pow 2).div_const 2).neg.pow j).div_const _)).intervalIntegrable 0 k)
    (continuous_exp_neg_sq.intervalIntegrable 0 k)
  intro t _
  exact expPoly_odd_le_exp_neg m (by positivity)

theorem integral_le_gaussSeries (m : ℕ) {k : ℝ} (hk : 0 ≤ k) :
    (∫ t in (0 : ℝ)..k, Real.exp (-(t ^ 2 / 2))) ≤ gaussSeries (2 * m) k := by
  rw [← integral_expPoly_sq]
  apply intervalIntegral.integral_mono_on hk
    (continuous_exp_neg_sq.intervalIntegrable 0 k)
    ((continuous_finset_sum _ fun j _ =>
      ((((continuous_pow 2).div_const 2).neg.pow j).div_const _)).intervalIntegrable 0 k)
  intro t _
  exact exp_neg_le_expPoly_even m (by positivity)

/-! ## The symmetric band integral around the mean -/

theorem cumulative_band (mu : ℝ) {sigma : ℝ} (hs : 0 < sigma) (k : ℝ) :
    cumulative (mu + k * sigma) mu sigma - cumulative (mu - k * sigma) mu sigma =
      (2 / Real.sqrt (2 * π)) * ∫ t in (0 : ℝ)..k, Real.exp (-(t ^ 2 / 2)) := by
  rw [cumulative_sub_cumulative mu hs, density_shift mu sigma,
    intervalIntegral.integral_comp_sub_right (fun t => density t 0 sigma) mu,
    show mu - k * sigma - mu = -(k * sigma) by ring,
    show mu + k * sigma - mu = k * sigma by ring]
  have hσ : sigma ≠ 0 := ne_of_gt hs
  have hst : (fun t : ℝ => density t 0 sigma) =
      fun t => (1 / (sigma * Real.sqrt (2 * π))) * Real.exp (-((t / sigma) ^ 2 / 2)) := by
    funext t
    unfold density
    rw [sub_zero, div_pow, div_div, mul_comm (sigma ^ 2) 2, neg_div]
  rw [hst, intervalIntegral.integral_const_mul,
    intervalIntegral.integral_comp_div (fun s => Real.exp (-(s ^ 2 / 2))) (ne_of_gt hs),
    show -(k * sigma) / sigma = -k by field_simp,
    show k * sigma / sigma = k by field_simp]
  have heven : (∫ s in (-k : ℝ)..k, Real.exp (-(s ^ 2 / 2))) =
      2 * ∫ s in (0 : ℝ)..k, Real.exp (-(s ^ 2 / 2)) := by
    have hsplit := intervalIntegral.integral_add_adjacent_intervals
      (a := -k) (b := 0) (c := k) (μ := volume)
      (f := fun s => Real.exp (-(s ^ 2 / 2)))
      (continuous_exp_neg_sq.intervalIntegrable _ _)
      (continuous_exp_neg_sq.intervalIntegrable _ _)
    have hcomp := intervalIntegral.integral_comp_neg (a := (0 : ℝ)) (b := k)
      (fun s => Real.exp (-(s ^ 2 / 2)))
    have hcong : (fun x : ℝ => Real.exp (-((-x) ^ 2 / 2))) =
        fun x : ℝ => Real.exp (-(x ^ 2 / 2)) := by
      funext x
      congr 1
      ring
    rw [hcong, neg_zero] at hcomp
    linarith
  rw [heven, smul_eq_mul]
  have hsq : Real.sqrt (2 * π) ≠ 0 := ne_of_gt sqrt_two_pi_pos
  field_simp
  ring

/-! ## Rational bounds for `√(2π)` and the standard CDF -/

theorem sqrt_two_pi_gt : (2.506628 : ℝ) < Real.sqrt (2 * π) := by
  rw [Real.lt_sqrt (by norm_num)]
  nlinarith [Real.pi_gt_d6]

theorem sqrt_two_pi_lt : Real.sqrt (2 * π) < 2.506629 := by
  rw [Real.sqrt_lt' (by norm_num)]
  nlinarith [Real.pi_lt_d6]

theorem cumulative_std_eq (k : ℝ) :
    cumulative k 0 1 = 1 / 2 +
      (1 / Real.sqrt (2 * π)) * ∫ t in (0 : ℝ)..k, Real.exp (-(t ^ 2 / 2)) := by
  have hdiff := cumulative_sub_cumulative 0 one_pos 0 k
  rw [cumulative_zero_half one_pos] at hdiff
  have hφ : (fun t : ℝ => density t 0 1) =
      fun t => (1 / Real.sqrt (2 * π)) * Real.exp (-(t ^ 2 / 2)) := by
    funext t
    unfold density
    rw [show (1 : ℝ) * Real.sqrt (2 * π) = Real.sqrt (2 * π) from one_mul _]
    congr 2
    ring
  rw [hφ, intervalIntegral.integral_const_mul] at hdiff
  linarith

/-! ## Numeric bounds on the standard normal integrals -/

theorem band_bounds_aux {I glo ghi lo hi : ℝ}
    (h1 : glo ≤ I) (h2 : I ≤ ghi)
    (hlo : lo * 2.506629 < 2 * glo) (hhi : 2 * ghi < hi * 2.506628)
    (hlopos : 0 < lo) (hhipos : 0 < hi) :
    lo < (2 / Real.sqrt (2 * π)) * I ∧ (2 / Real.sqrt (2 * π)) * I < hi := by
  have hspos := sqrt_two_pi_pos
  have hs1 := sqrt_two_pi_lt
  have hs2 := sqrt_two_pi_gt
  constructor
  · rw [div_mul_eq_mul_div, lt_div_iff hspos]
    nlinarith
  · rw [div_mul_eq_mul_div, div_lt_iff hspos]
    nlinarith

theorem phi_bounds_aux {I glo ghi lo hi : ℝ}
    (h1 : glo ≤ I) (h2 : I ≤ ghi)
    (hlo : (lo - 1 / 2) * 2.506629 < glo) (hhi : ghi < (hi - 1 / 2) * 2.506628)
    (hlopos : 0 < lo - 1 / 2) (hhipos : 0 < hi - 1 / 2) :
    lo < 1 / 2 + (1 / Real.sqrt (2 * π)) * I ∧
      1 / 2 + (1 / Real.sqrt (2 * π)) * I < hi := by
  have hspos := sqrt_two_pi_pos
  have hs1 := sqrt_two_pi_lt
  have hs2 := sqrt_two_pi_gt
  constructor
  · have key : (lo - 1 / 2) < (1 / Real.sqrt (2 * π)) * I := by
      rw [div_mul_eq_mul_div, one_mul, lt_div_iff hspos]
      nlinarith
    linarith
  · have key : (1 / Real.sqrt (2 * π)) * I < (hi - 1 / 2) := by
      rw [div_mul_eq_mul_div, one_mul, div_lt_iff hspos]
      nlinarith
    linarith

theorem band_one_bounds :
    (0.6817 : ℝ) < (2 / Real.sqrt (2 * π)) * ∫ t in (0 : ℝ)..1, Real.exp (-(t ^ 2 / 2)) ∧
      (2 / Real.sqrt (2 * π)) * (∫ t in (0 : ℝ)..1, Real.exp (-(t ^ 2 / 2))) < 0.6837 :=
  band_bounds_aux
    (gaussSeries_le_integral 2 (by norm_num : (0 : ℝ) ≤ 1))
    (integral_le_gaussSeries 3 (by norm_num : (0 : ℝ) ≤ 1))
    (by norm_num [gaussSeries, Finset.sum_range_succ, Nat.factorial])
    (by norm_num [gaussSeries, Finset.sum_range_succ, Nat.factorial])
    (by norm_num) (by norm_num)

theorem band_two_bounds :
    (0.9535 : ℝ) < (2 / Real.sqrt (2 * π)) * ∫ t in (0 : ℝ)..2, Real.exp (-(t ^ 2 / 2)) ∧
      (2 / Real.sqrt (2 * π)) * (∫ t in (0 : ℝ)..2, Real.exp (-(t ^ 2 / 2))) < 0.9555 :=
  band_bounds_aux
    (gaussSeries_le_integral 5 (by norm_num : (0 : ℝ) ≤ 2))
    (integral_le_gaussSeries 6 (by norm_num : (0 : ℝ) ≤ 2))
    (by norm_num [gaussSeries, Finset.sum_range_succ, Nat.factorial])
    (by norm_num [gaussSeries, Finset.sum_range_succ, Nat.factorial])
    (by norm_num) (by norm_num)

theorem band_three_bounds :
    (0.9963 : ℝ) < (2 / Real.sqrt (2 * π)) * ∫ t in (0 : ℝ)..3, Real.exp (-(t ^ 2 / 2)) ∧
      (2 / Real.sqrt (2 * π)) * (∫ t in (0 : ℝ)..3, Real.exp (-(t ^ 2 / 2))) < 0.9983 :=
  band_bounds_aux
    (gaussSeries_le_integral 7 (by norm_num : (0 : ℝ) ≤ 3))
    (integral_le_gaussSeries 8 (by norm_num : (0 : ℝ) ≤ 3))
    (by norm_num [gaussSeries, Finset.sum_range_succ, Nat.factorial])
    (by norm_num [gaussSeries, Finset.sum_range_succ, Nat.factorial])
    (by norm_num) (by norm_num)

theorem phi_196_bounds :
    (0.974 : ℝ) < cumulative 1.96 0 1 ∧ cumulative 1.96 0 1 < 0.976 := by
  rw [cumulative_std_eq]
  exact phi_bounds_aux
    (gaussSeries_le_integral 3 (by norm_num : (0 : ℝ) ≤ 1.96))
    (integral_le_gaussSeries 4 (by norm_num : (0 : ℝ) ≤ 1.96))
    (by norm_num [gaussSeries, Finset.sum_range_succ, Nat.factorial])
    (by norm_num [gaussSeries, Finset.sum_range_succ, Nat.factorial])
    (by norm_num) (by norm_num)

theorem phi_195_lt : cumulative 1.95 0 1 < 0.975 := by
  rw [cumulative_std_eq]
  refine (phi_bounds_aux
    (gaussSeries_le_integral 3 (by norm_num : (0 : ℝ) ≤ 1.95))
    (integral_le_gaussSeries 4 (by norm_num : (0 : ℝ) ≤ 1.95))
    (show ((0.6 : ℝ) - 1 / 2) * 2.506629 < gaussSeries (2 * 3 + 1) 1.95 by
      norm_num [gaussSeries, Finset.sum_range_succ, Nat.factorial])
    (by norm_num [gaussSeries, Finset.sum_range_succ, Nat.factorial])
    (by norm_num) (by norm_num)).2

theorem phi_197_gt : (0.975 : ℝ) < cumulative 1.97 0 1 := by
  rw [cumulative_std_eq]
  refine (phi_bounds_aux
    (gaussSeries_le_integral 3 (by norm_num : (0 : ℝ) ≤ 1.97))
    (integral_le_gaussSeries 4 (by norm_num : (0 : ℝ) ≤ 1.97))
    (by norm_num [gaussSeries, Finset.sum_range_succ, Nat.factorial])
    (show gaussSeries (2 * 4) 1.97 < ((0.999 : ℝ) - 1 / 2) * 2.506628 by
      norm_num [gaussSeries, Finset.sum_range_succ, Nat.factorial])
    (by norm_num) (by norm_num)).1

/-! ## Claim theorems -/

/-- C1: for every lower bound `lo`, upper bound `hi`, mean `mu` and sigma,
`interval_probability lo hi mu sigma` equals
`cumulative hi mu sigma - cumulative lo mu sigma`, and the quality-control
acceptance probability `p_accept = 1 - (cdf(lower_spec) + (1 - cdf(upper_spec)))`
equals exactly that interval probability of the tolerance band. -/
theorem interval_probability_eq_cdf_diff :
    (∀ lo hi mu sigma : ℝ, interval_probability lo hi mu sigma =
      cumulative hi mu sigma - cumulative lo mu sigma) ∧
    ∀ target_diameter process_std tolerance : ℝ,
      p_accept target_diameter process_std tolerance =
        interval_probability (lower_spec target_diameter tolerance)
          (upper_spec target_diameter tolerance) target_diameter process_std := by
  constructor
  · intro lo hi mu sigma
    rfl
  · intro t s tol
    unfold p_accept p_reject_total p_reject_low p_reject_high interval_probability
    ring

/-- C2: for every mean `mu` and every `sigma > 0`, the CDF evaluated at the
mean is exactly one half. -/
theorem cumulative_at_mean_eq_half (mu sigma : ℝ) (hs : 0 < sigma) :
    cumulative mu mu sigma = 0.5 := by
  rw [cumulative_mean hs mu]
  norm_num

/-- Witness for C2 at `mu = 3`, `sigma = 2`. -/
theorem cumulative_at_mean_eq_half_witness : cumulative 3 3 2 = 0.5 :=
  cumulative_at_mean_eq_half 3 2 (by norm_num)

/-- C4: for every mean `mu` and `sigma > 0`, the density at the mean is the
maximum of the density over all `x`. -/
theorem density_max_at_mean (x mu sigma : ℝ) (hs : 0 < sigma) :
    density x mu sigma ≤ density mu mu sigma :=
  density_le_peak hs x mu

/-- Witness for C4 at `x = 1`, `mu = 0`, `sigma = 1`. -/
theorem density_max_at_mean_witness : density 1 0 1 ≤ density 0 0 1 :=
  density_max_at_mean 1 0 1 (by norm_num)

/-- C6: for every `x`, `mu` and every sigma with `sigma = 0` or `sigma < 0`,
the checked density of the spec's Gaussian analytics module fails with
`InvalidParameter` rather than returning a value. -/
theorem density_checked_invalid_sigma (x mu sigma : ℝ)
    (hs : sigma = 0 ∨ sigma < 0) :
    density_checked x mu sigma = Except.error StatError.invalidParameter := by
  have hle : sigma ≤ 0 := by
    rcases hs with h | h
    · exact le_of_eq h
    · exact le_of_lt h
  unfold density_checked
  rw [if_pos hle]

/-- Witness for C6 at `x = 1`, `mu = 0`, `sigma = 0`. -/
theorem density_checked_invalid_sigma_witness :
    density_checked 1 0 0 = Except.error StatError.invalidParameter :=
  density_checked_invalid_sigma 1 0 0 (Or.inl rfl)

/-- C7: for every mean `mu` and `sigma > 0`, the checked quantile of the
spec's Gaussian analytics module fails with `OutOfRange` at probabilities
exactly 0 and exactly 1 instead of silently returning ±infinity. -/
theorem quantile_checked_out_of_range (mu sigma : ℝ) (hs : 0 < sigma) :
    quantile_checked 0 mu sigma = Except.error StatError.outOfRange ∧
    quantile_checked 1 mu sigma = Except.error StatError.outOfRange := by
  have hns : ¬sigma ≤ 0 := not_le.mpr hs
  constructor
  · unfold quantile_checked
    rw [if_neg hns, if_pos (Or.inl rfl)]
  · unfold quantile_checked
    rw [if_neg hns, if_pos (Or.inr rfl)]

/-- Witness for C7 at `mu = 0`, `sigma = 1`. -/
theorem quantile_checked_out_of_range_witness :
    quantile_checked 0 0 1 = Except.error StatError.outOfRange ∧
    quantile_checked 1 0 1 = Except.error StatError.outOfRange :=
  quantile_checked_out_of_range 0 1 (by norm_num)

/-- C8: in the one-sample z-test, for every significance level
`alpha ∈ (0,1)`, claimed mean, sample mean, population standard deviation
`> 0` and sample size `≥ 1`, the decision `reject_null`
(`|z_score| > ppf(1 - alpha/2)`) holds iff the two-tailed p-value
`2 * (1 - cdf(|z_score|))` is strictly below `alpha`. -/
theorem reject_null_iff_p_value_lt_alpha
    (claimed_mean population_std sample_size sample_mean alpha : ℝ)
    (ha0 : 0 < alpha) (ha1 : alpha < 1)
    (hstd : 0 < population_std) (hn : 1 ≤ sample_size) :
    reject_null claimed_mean population_std sample_size sample_mean alpha ↔
      p_value claimed_mean population_std sample_size sample_mean < alpha := by
  have h₁ : 0 < 1 - alpha / 2 := by linarith
  have h₂ : 1 - alpha / 2 < 1 := by linarith
  obtain ⟨c, hc⟩ := exists_cumulative_eq 0 one_pos h₁ h₂
  have hcrit : z_critical alpha = c := by
    unfold z_critical
    exact quantile_eq_of_cumulative_eq 0 one_pos hc
  unfold reject_null p_value
  rw [hcrit]
  constructor
  · intro h
    have hmono : cumulative c 0 1 <
        cumulative |z_score claimed_mean population_std sample_size sample_mean| 0 1 :=
      cumulative_strictMono one_pos h
    rw [hc] at hmono
    linarith
  · intro h
    have hgt : cumulative c 0 1 <
        cumulative |z_score claimed_mean population_std sample_size sample_mean| 0 1 := by
      rw [hc]
      linarith
    exact (@cumulative_strictMono 0 1 one_pos).lt_iff_lt.mp hgt

/-- Witness for C8 at the source's default slider values:
claimed mean 1000, population std 100, sample size 36, sample mean 950,
`alpha = 0.05`. -/
theorem reject_null_iff_p_value_lt_alpha_witness :
    reject_null 1000 100 36 950 0.05 ↔ p_value 1000 100 36 950 < 0.05 :=
  reject_null_iff_p_value_lt_alpha 1000 100 36 950 0.05
    (by norm_num) (by norm_num) (by norm_num) (by norm_num)

/-- C9: for every mean `mu` and `sigma > 0`, the quantile function is
strictly increasing on `(0, 1)`; in particular the displayed 25th, 75th
and 90th percentile score benchmarks are in strictly increasing order. -/
theorem quantile_strictly_increasing (mu sigma : ℝ) (hs : 0 < sigma) :
    (∀ p q : ℝ, 0 < p → p < q → q < 1 →
      quantile p mu sigma < quantile q mu sigma) ∧
    quantile 0.25 mu sigma < quantile 0.75 mu sigma ∧
    quantile 0.75 mu sigma < quantile 0.90 mu sigma := by
  refine ⟨fun p q hp hpq hq => quantile_lt_quantile mu hs hp hpq hq, ?_, ?_⟩
  · exact quantile_lt_quantile mu hs (by norm_num) (by norm_num) (by norm_num)
  · exact quantile_lt_quantile mu hs (by norm_num) (by norm_num) (by norm_num)

/-- Witness for C9 at `mu = 528`, `sigma = 117` (the source's SAT default). -/
theorem quantile_strictly_increasing_witness :
    quantile 0.25 528 117 < quantile 0.75 528 117 ∧
    quantile 0.75 528 117 < quantile 0.90 528 117 :=
  (quantile_strictly_increasing 528 117 (by norm_num)).2

/-- C10: for every mean `mu` and `sigma > 0`, the displayed maximum curve
height (the maximum of the density over the 1000-point `np.linspace` grid
from `mu - 4*sigma` to `mu + 4*sigma`) never exceeds the true peak density
`1/(sigma*sqrt(2*pi))`, which is the density at the mean. -/
theorem max_height_le_true_peak (mu sigma : ℝ) (hs : 0 < sigma) :
    max_height mu sigma ≤ density mu mu sigma ∧
    density mu mu sigma = 1 / (sigma * Real.sqrt (2 * π)) :=
  ⟨max_height_le_peak hs mu, density_peak_eq mu sigma⟩

/-- Witness for C10 at `mu = 0`, `sigma = 1`. -/
theorem max_height_le_true_peak_witness :
    max_height 0 1 ≤ density 0 0 1 ∧
    density 0 0 1 = 1 / (1 * Real.sqrt (2 * π)) :=
  max_height_le_true_peak 0 1 (by norm_num)

/-- C3: for every `x`, `mu` and `sigma > 0` the quantile of the CDF value
returns `x` (within the claimed 1e-6 tolerance; here the round trip is
exact); concretely `cumulative 1.96 0 1 ≈ 0.975` and
`quantile 0.975 0 1 ≈ 1.96`. -/
theorem quantile_cumulative_round_trip :
    (∀ x mu sigma : ℝ, 0 < sigma →
      |quantile (cumulative x mu sigma) mu sigma - x| ≤ 0.000001) ∧
    |cumulative 1.96 0 1 - 0.975| < 0.001 ∧
    |quantile 0.975 0 1 - 1.96| < 0.01 := by
  refine ⟨?_, ?_, ?_⟩
  · intro x mu sigma hs
    rw [quantile_cumulative mu hs x, sub_self, abs_zero]
    norm_num
  · have h := phi_196_bounds
    rw [abs_lt]
    constructor
    · linarith [h.1]
    · linarith [h.2]
  · obtain ⟨y, hy⟩ := exists_cumulative_eq 0 one_pos
      (by norm_num : (0 : ℝ) < 0.975) (by norm_num : (0.975 : ℝ) < 1)
    have hq : quantile 0.975 0 1 = y := quantile_eq_of_cumulative_eq 0 one_pos hy
    have hylo : (1.95 : ℝ) < y := by
      apply (@cumulative_strictMono 0 1 one_pos).lt_iff_lt.mp
      show cumulative 1.95 0 1 < cumulative y 0 1
      rw [hy]
      exact phi_195_lt
    have hyhi : y < 1.97 := by
      apply (@cumulative_strictMono 0 1 one_pos).lt_iff_lt.mp
      show cumulative y 0 1 < cumulative 1.97 0 1
      rw [hy]
      exact phi_197_gt
    rw [hq, abs_lt]
    constructor
    · linarith
    · linarith

/-- Witness for C3 at `x = 0.3`, `mu = 0`, `sigma = 1`. -/
theorem quantile_cumulative_round_trip_witness :
    |quantile (cumulative 0.3 0 1) 0 1 - 0.3| ≤ 0.000001 :=
  quantile_cumulative_round_trip.1 0.3 0 1 (by norm_num)

/-- C5: for every mean `mu` and `sigma > 0` the 1σ, 2σ and 3σ central
interval probabilities are within 1e-3 of 0.6827, 0.9545 and 0.9973
(the empirical rule), and concretely
`interval_probability 120 260 190 35 ≈ 0.9545`. -/
theorem empirical_rule_bounds (mu sigma : ℝ) (hs : 0 < sigma) :
    |interval_probability (mu - sigma) (mu + sigma) mu sigma - 0.6827| < 0.001 ∧
    |interval_probability (mu - 2 * sigma) (mu + 2 * sigma) mu sigma - 0.9545| < 0.001 ∧
    |interval_probability (mu - 3 * sigma) (mu + 3 * sigma) mu sigma - 0.9973| < 0.001 ∧
    |interval_probability 120 260 190 35 - 0.9545| < 0.001 := by
  have hb1 := band_one_bounds
  have hb2 := band_two_bounds
  have hb3 := band_three_bounds
  have h1 : interval_probability (mu - sigma) (mu + sigma) mu sigma =
      (2 / Real.sqrt (2 * π)) * ∫ t in (0 : ℝ)..1, Real.exp (-(t ^ 2 / 2)) := by
    unfold interval_probability
    have h := cumulative_band mu hs 1
    rw [one_mul] at h
    exact h
  have h2 : interval_probability (mu - 2 * sigma) (mu + 2 * sigma) mu sigma =
      (2 / Real.sqrt (2 * π)) * ∫ t in (0 : ℝ)..2, Real.exp (-(t ^ 2 / 2)) := by
    unfold interval_probability
    exact cumulative_band mu hs 2
  have h3 : interval_probability (mu - 3 * sigma) (mu + 3 * sigma) mu sigma =
      (2 / Real.sqrt (2 * π)) * ∫ t in (0 : ℝ)..3, Real.exp (-(t ^ 2 / 2)) := by
    unfold interval_probability
    exact cumulative_band mu hs 3
  have hconc : interval_probability 120 260 190 35 =
      (2 / Real.sqrt (2 * π)) * ∫ t in (0 : ℝ)..2, Real.exp (-(t ^ 2 / 2)) := by
    unfold interval_probability
    have h := cumulative_band 190 (by norm_num : (0 : ℝ) < 35) 2
    rw [show (190 : ℝ) + 2 * 35 = 260 by norm_num,
      show (190 : ℝ) - 2 * 35 = 120 by norm_num] at h
    exact h
  refine ⟨?_, ?_, ?_, ?_⟩
  · rw [h1, abs_lt]
    constructor
    · linarith [hb1.1]
    · linarith [hb1.2]
  · rw [h2, abs_lt]
    constructor
    · linarith [hb2.1]
    · linarith [hb2.2]
  · rw [h3, abs_lt]
    constructor
    · linarith [hb3.1]
    · linarith [hb3.2]
  · rw [hconc, abs_lt]
    constructor
    · linarith [hb2.1]
    · linarith [hb2.2]

/-- Witness for C5 at `mu = 0`, `sigma = 1`. -/
theorem empirical_rule_bounds_witness :
    |interval_probability (0 - 1) (0 + 1) 0 1 - 0.6827| < 0.001 ∧
    |interval_probability (0 - 2 * 1) (0 + 2 * 1) 0 1 - 0.9545| < 0.001 ∧
    |interval_probability (0 - 3 * 1) (0 + 3 * 1) 0 1 - 0.9973| < 0.001 ∧
    |interval_probability 120 260 190 35 - 0.9545| < 0.001 :=
  empirical_rule_bounds 0 1 (by norm_num)

end Gaussian
